import Mathlib

/-!
Verification of the block-mode compression pipeline of gozstd.

The Go source (`compressFileBlock` and its helpers) is shallowly embedded:

* file contents are `List Nat` (one `Nat` per byte);
* `divideFileIntoSegments` is a direct translation of the planner loop,
  with the Go `int64` arithmetic carried out on `Nat` (all quantities in
  the claims are non-negative and far below `2^63`, so the arithmetic
  never overflows and `Nat` models it exactly);
* the worker read loop of `compressPart` (lines 63-90 of the source) is
  `compressPartLoop`: a read at position `pos` returns
  `min oneMB (file.length - pos)` bytes, exactly the behaviour of
  `os.File.Read` with a 1 MiB buffer on a regular file; the result is
  `none` exactly when the over-read `panic` branch is taken, and
  `some payload` when the loop breaks normally (either at
  `currentOffset == endOffset` or at a zero-byte read);
* the zstd codec is out of scope (an external library); it is abstracted
  as a `Codec` whose framing contract `FrameCodec` states the documented
  zstd property: independently produced frames concatenate into one
  decodable stream.  `lpCodec` (length-prefixed frames) is a concrete
  executable instance used for witnesses;
* `concatenateFiles` keeps only the index/payload content of the Go
  function: the part files, keyed by the numeric index parsed from their
  names, are sorted by index and their payloads concatenated.
  `sort.Slice` is modelled by a comparison sort on the index; for the
  duplicate-free indices the pipeline produces the sorted result is
  unique, so the choice of sorting algorithm is immaterial;
* the error handling of `compressFileBlock` (lines 205-239) is modelled
  by `compressFileBlockOutcome`/`compressFileBlockFS` over an explicit
  list of per-worker results, since worker failures are I/O events that
  have no source of nondeterminism in the pure model;
  `compressFileBlockFS` additionally tracks which on-disk part files
  remain when the function returns.
-/

namespace Gozstd

/-- Go: `const oneMB = 1 << 20`. -/
def oneMB : Nat := 1 <<< 20

theorem oneMB_eq : oneMB = 1048576 := rfl

theorem oneMB_pos : 0 < oneMB := by decide

/-- The zstd codec used by the pipeline, abstracted: `encodeAll level chunk`
is `encoder.EncodeAll(chunk, nil)` for an encoder at the given level, and
`decode` is `zstd.NewReader` + `io.Copy` applied to a whole stream. -/
structure Codec where
  encodeAll : Nat → List Nat → List Nat
  decode : List Nat → Option (List Nat)

/-- The zstd framing contract assumed by the pipeline (spec section 2 and
6.1): an empty stream decodes to nothing, and a stream that starts with one
complete frame decodes to that frame's content followed by the decoding of
the rest.  Consequently independently encoded frames are
concatenation-safe. -/
def FrameCodec (C : Codec) : Prop :=
  C.decode [] = some [] ∧
  ∀ level chunk rest r, C.decode rest = some r →
    C.decode (C.encodeAll level chunk ++ rest) = some (chunk ++ r)

/-- The body of the planner's `for i := 0; i < threadCount; i++` loop
(source lines 112-124), as a recursion over the remaining iteration count.
Note that in Go `remainingMB--` runs only when `remainingMB > 0`; on `Nat`,
truncated subtraction `remainingMB - 1` is the same function. -/
def segmentsLoop (fileSize segmentSizeMB : Nat) :
    Nat → Nat → Nat → List (Nat × Nat)
  | _, _, 0 => []
  | remainingMB, start, count + 1 =>
    let endA := start + segmentSizeMB * oneMB +
      (if 0 < remainingMB then oneMB else 0)
    let endB := if fileSize < endA then fileSize else endA
    (start, endB) :: segmentsLoop fileSize segmentSizeMB (remainingMB - 1) endB count

/-- Go `divideFileIntoSegments` (source lines 101-127). -/
def divideFileIntoSegments (fileSize : Nat) (threadCount : Nat) : List (Nat × Nat) :=
  let fileSizeMB := (fileSize + oneMB - 1) / oneMB
  let segmentSizeMB := fileSizeMB / threadCount
  let remainingMB := fileSizeMB % threadCount
  segmentsLoop fileSize segmentSizeMB remainingMB 0 threadCount

/-- The read/encode loop of Go `compressPart` (source lines 63-90).
A read at position `pos` returns `n = min oneMB (file.length - pos)` bytes.
`n = 0` breaks the loop (returning success); otherwise the chunk is
encoded and appended; reaching `endOffset` exactly breaks the loop;
overshooting it takes the `panic` branch, modelled as `none`. -/
def compressPartLoop (C : Codec) (level : Nat) (file : List Nat)
    (endOffset : Nat) (pos : Nat) : Option (List Nat) :=
  if h0 : min oneMB (file.length - pos) = 0 then
    some []
  else
    let n := min oneMB (file.length - pos)
    let chunk := (file.drop pos).take n
    if pos + n = endOffset then
      some (C.encodeAll level chunk)
    else if endOffset < pos + n then
      none
    else
      (compressPartLoop C level file endOffset (pos + n)).map
        (fun out => C.encodeAll level chunk ++ out)
termination_by file.length - pos
decreasing_by
  omega

/-- Go `compressPart` restricted to its computational content: the
compressed payload written to the part file for the byte range
`[offset.1, offset.2)`, or `none` if the loop panics. -/
def compressPart (C : Codec) (level : Nat) (file : List Nat)
    (offset : Nat × Nat) : Option (List Nat) :=
  compressPartLoop C level file offset.2 offset.1

/-- The per-index payloads of all workers, in segment order; `none` if any
worker run hits the panic branch. -/
def collectParts (C : Codec) (level : Nat) (file : List Nat) :
    List (Nat × Nat) → Option (List (List Nat))
  | [] => some []
  | seg :: rest =>
    match compressPart C level file seg, collectParts C level file rest with
    | some p, some ps => some (p :: ps)
    | _, _ => none

/-- Go `concatenateFiles` (source lines 145-193), keeping its
index/payload content: each part file is a pair of the numeric index
parsed from its name and its byte content; the files are sorted by index
(`sort.Slice`) and their contents concatenated into the output file. -/
def concatenateFiles (files : List (Nat × List Nat)) : List Nat :=
  ((List.insertionSort (fun a b => a.1 ≤ b.1) files).map Prod.snd).flatten

/-- Go `compressFileBlock` (source lines 195-240) on the success path:
plan the segments for the file's size, run one worker per segment, and
concatenate the indexed part files.  `none` models the run aborting
(worker panic). -/
def compressFileBlock (C : Codec) (level : Nat) (file : List Nat)
    (threadCount : Nat) : Option (List Nat) :=
  match collectParts C level file (divideFileIntoSegments file.length threadCount) with
  | some parts => some (concatenateFiles parts.enum)
  | none => none

/-- Go `decompressFile` (source lines 242-255): decode the whole stream. -/
def decompressFile (C : Codec) (input : List Nat) : Option (List Nat) :=
  C.decode input

/-- A concrete executable codec satisfying `FrameCodec`: each frame is the
chunk prefixed with its length. Used to instantiate the abstract zstd
codec in witnesses. -/
def lpEncode (level : Nat) (chunk : List Nat) : List Nat :=
  chunk.length :: chunk

/-- Decoder for `lpEncode`'s length-prefixed frames. -/
def lpDecode : List Nat → Option (List Nat)
  | [] => some []
  | n :: rest =>
    if h : n ≤ rest.length then
      match lpDecode (rest.drop n) with
      | some r => some (rest.take n ++ r)
      | none => none
    else
      none
termination_by l => l.length
decreasing_by
  simp only [List.length_drop, List.length_cons]
  omega

def lpCodec : Codec := ⟨lpEncode, lpDecode⟩

theorem lpCodec_frame : FrameCodec lpCodec := by
  constructor
  · show lpDecode [] = some []
    simp [lpDecode]
  · intro level chunk rest r h
    have h2 : lpDecode rest = some r := h
    show lpDecode (lpEncode level chunk ++ rest) = some (chunk ++ r)
    have hlen : chunk.length ≤ (chunk ++ rest).length := by
      simp [List.length_append]
    simp only [lpEncode, List.cons_append]
    unfold lpDecode
    rw [dif_pos hlen, List.drop_left, h2, List.take_left]

/-- Well-formedness of a segment list with respect to a file of size `L`,
starting at offset `s`: the list is contiguous from `s`, each segment lies
inside `[0, L]`, a non-empty segment's length is a 1 MiB multiple unless
the segment ends at `L`, an empty segment sits exactly at `L`, and the
list ends at `L`. -/
def SegsOK (L : Nat) : Nat → List (Nat × Nat) → Prop
  | s, [] => s = L
  | s, seg :: rest =>
    seg.1 = s ∧ seg.1 ≤ seg.2 ∧ seg.2 ≤ L ∧
    (seg.1 < seg.2 → (seg.2 - seg.1) % oneMB = 0 ∨ seg.2 = L) ∧
    (seg.1 = seg.2 → seg.1 = L) ∧ SegsOK L seg.2 rest

theorem segsOK_cons_intro {L s a b : Nat} {rest : List (Nat × Nat)}
    (h1 : a = s) (h2 : a ≤ b) (h3 : b ≤ L)
    (h4 : a < b → (b - a) % oneMB = 0 ∨ b = L)
    (h5 : a = b → a = L) (h6 : SegsOK L b rest) :
    SegsOK L s ((a, b) :: rest) :=
  ⟨h1, h2, h3, h4, h5, h6⟩

theorem segmentsLoop_segsOK (fS sS : Nat) (count : Nat) :
    ∀ rem start, start ≤ fS →
      fS ≤ start + (count * sS + min rem count) * oneMB →
      SegsOK fS start (segmentsLoop fS sS rem start count) := by
  induction count with
  | zero =>
    intro rem start hstart hcap
    show start = fS
    simp only [Nat.min_zero, Nat.zero_mul, Nat.add_zero, Nat.zero_add] at hcap
    omega
  | succ count ih =>
    intro rem start hstart hcap
    have hMB := oneMB_pos
    simp only [segmentsLoop]
    by_cases hrem : 0 < rem
    · simp only [if_pos hrem]
      by_cases hcl : fS < start + sS * oneMB + oneMB
      · -- clamped: this segment ends at fS and the recursion starts there
        rw [if_pos hcl]
        refine segsOK_cons_intro rfl hstart (Nat.le_refl fS)
          (fun _ => Or.inr rfl) (fun h => h) ?_
        exact ih (rem - 1) fS (Nat.le_refl fS)
          (Nat.le_add_right fS ((count * sS + min (rem - 1) count) * oneMB))
      · rw [if_neg hcl]
        have hnocl : start + sS * oneMB + oneMB ≤ fS := Nat.le_of_not_lt hcl
        have hmod : (start + sS * oneMB + oneMB - start) % oneMB = 0 := by
          have h2 : (sS + 1) * oneMB = sS * oneMB + oneMB := Nat.succ_mul sS oneMB
          have h1 : start + sS * oneMB + oneMB - start = (sS + 1) * oneMB := by omega
          rw [h1, Nat.mul_mod_left]
        have hcap2 : fS ≤ start + sS * oneMB + oneMB +
            (count * sS + min (rem - 1) count) * oneMB := by
          have e1 : ((count + 1) * sS + min rem (count + 1)) * oneMB
              = count * sS * oneMB + sS * oneMB + min rem (count + 1) * oneMB := by ring
          have e2 : (count * sS + min (rem - 1) count) * oneMB
              = count * sS * oneMB + min (rem - 1) count * oneMB := by ring
          have hk : min rem (count + 1) ≤ 1 + min (rem - 1) count := by omega
          have hk2 : min rem (count + 1) * oneMB ≤ (1 + min (rem - 1) count) * oneMB :=
            Nat.mul_le_mul_right oneMB hk
          have e3 : (1 + min (rem - 1) count) * oneMB
              = oneMB + min (rem - 1) count * oneMB := by ring
          omega
        refine segsOK_cons_intro rfl (by omega) hnocl
          (fun _ => Or.inl hmod) (fun h => by omega) ?_
        exact ih (rem - 1) (start + sS * oneMB + oneMB) hnocl hcap2
    · simp only [if_neg hrem, Nat.add_zero]
      have hrem0 : rem = 0 := by omega
      by_cases hcl : fS < start + sS * oneMB
      · rw [if_pos hcl]
        refine segsOK_cons_intro rfl hstart (Nat.le_refl fS)
          (fun _ => Or.inr rfl) (fun h => h) ?_
        exact ih (rem - 1) fS (Nat.le_refl fS)
          (Nat.le_add_right fS ((count * sS + min (rem - 1) count) * oneMB))
      · rw [if_neg hcl]
        have hnocl : start + sS * oneMB ≤ fS := Nat.le_of_not_lt hcl
        have hmod : (start + sS * oneMB - start) % oneMB = 0 := by
          have h1 : start + sS * oneMB - start = sS * oneMB := by omega
          rw [h1, Nat.mul_mod_left]
        subst hrem0
        have hcapz : fS ≤ start + (count + 1) * (sS * oneMB) := by
          have e1 : ((count + 1) * sS + min 0 (count + 1)) * oneMB
              = (count + 1) * (sS * oneMB) := by
            simp only [Nat.zero_min, Nat.add_zero]
            ring
          omega
        have hcap2 : fS ≤ start + sS * oneMB +
            (count * sS + min (0 - 1) count) * oneMB := by
          have e2 : (count * sS + min (0 - 1) count) * oneMB
              = count * (sS * oneMB) := by
            simp only [Nat.zero_sub, Nat.zero_min, Nat.add_zero]
            ring
          have e3 : (count + 1) * (sS * oneMB) = count * (sS * oneMB) + sS * oneMB := by
            ring
          omega
        have hempty : start = start + sS * oneMB → start = fS := by
          intro h
          have hs0 : sS * oneMB = 0 := by omega
          rw [hs0, Nat.mul_zero, Nat.add_zero] at hcapz
          omega
        refine segsOK_cons_intro rfl (Nat.le_add_right start (sS * oneMB)) hnocl
          (fun _ => Or.inl hmod) hempty ?_
        exact ih (0 - 1) (start + sS * oneMB) hnocl hcap2

theorem segsOK_mem_props {L s : Nat} {segs : List (Nat × Nat)}
    (h : SegsOK L s segs) :
    ∀ p ∈ segs, p.1 ≤ p.2 ∧ p.2 ≤ L ∧
      (p.1 < p.2 → (p.2 - p.1) % oneMB = 0 ∨ p.2 = L) ∧
      (p.1 = p.2 → p.1 = L) := by
  induction segs generalizing s with
  | nil => intro p hp; exact absurd hp (List.not_mem_nil p)
  | cons q rest ih =>
    obtain ⟨hq1, hq2, hq3, hq4, hq5, hrest⟩ := h
    intro p hp
    rcases List.mem_cons.mp hp with hp | hp
    · subst hp; exact ⟨hq2, hq3, hq4, hq5⟩
    · exact ih hrest p hp

theorem segsOK_start_le {L s : Nat} {segs : List (Nat × Nat)}
    (h : SegsOK L s segs) : ∀ p ∈ segs, s ≤ p.1 := by
  induction segs generalizing s with
  | nil => intro p hp; exact absurd hp (List.not_mem_nil p)
  | cons q rest ih =>
    obtain ⟨hq1, hq2, hq3, hq4, hq5, hrest⟩ := h
    intro p hp
    rcases List.mem_cons.mp hp with hp | hp
    · subst hp; exact Nat.le_of_eq hq1.symm
    · exact Nat.le_trans (Nat.le_trans (Nat.le_of_eq hq1.symm) hq2) (ih hrest p hp)

theorem segsOK_pairwise {L s : Nat} {segs : List (Nat × Nat)}
    (h : SegsOK L s segs) : List.Pairwise (fun a b => a.2 ≤ b.1) segs := by
  induction segs generalizing s with
  | nil => exact List.Pairwise.nil
  | cons q rest ih =>
    obtain ⟨hq1, hq2, hq3, hq4, hq5, hrest⟩ := h
    exact List.Pairwise.cons (segsOK_start_le hrest) (ih hrest)

theorem segsOK_chain {L s : Nat} {segs : List (Nat × Nat)}
    (h : SegsOK L s segs) : List.Chain' (fun a b => a.2 = b.1) segs := by
  induction segs generalizing s with
  | nil => exact List.chain'_nil
  | cons q rest ih =>
    obtain ⟨hq1, hq2, hq3, hq4, hq5, hrest⟩ := h
    refine List.chain'_cons'.mpr ⟨?_, ih hrest⟩
    intro b hb
    cases rest with
    | nil => simp at hb
    | cons r t =>
      simp only [List.head?_cons, Option.mem_def, Option.some.injEq] at hb
      subst hb
      exact hrest.1.symm

theorem segsOK_last {L s : Nat} {segs : List (Nat × Nat)}
    (h : SegsOK L s segs) :
    segs.getLast?.map Prod.snd = some L ∨ (segs = [] ∧ s = L) := by
  induction segs generalizing s with
  | nil => exact Or.inr ⟨rfl, h⟩
  | cons q rest ih =>
    obtain ⟨hq1, hq2, hq3, hq4, hq5, hrest⟩ := h
    cases rest with
    | nil =>
      left
      have hb : q.2 = L := hrest
      simp [List.getLast?_singleton, hb]
    | cons r t =>
      rcases ih hrest with hlast | ⟨hnil, _⟩
      · left
        rwa [List.getLast?_cons_cons]
      · exact absurd hnil (List.cons_ne_nil r t)

theorem segsOK_cover {L s : Nat} {segs : List (Nat × Nat)}
    (h : SegsOK L s segs) :
    ∀ x, (s ≤ x ∧ x < L) ↔ ∃ p ∈ segs, p.1 ≤ x ∧ x < p.2 := by
  induction segs generalizing s with
  | nil =>
    intro x
    have hs : s = L := h
    subst hs
    simp only [List.not_mem_nil, false_and, exists_false, iff_false]
    omega
  | cons q rest ih =>
    obtain ⟨hq1, hq2, hq3, hq4, hq5, hrest⟩ := h
    intro x
    have hih := ih hrest x
    subst hq1
    constructor
    · rintro ⟨hsx, hxL⟩
      by_cases hxb : x < q.2
      · exact ⟨q, List.mem_cons_self q rest, hsx, hxb⟩
      · have hbx : q.2 ≤ x := Nat.le_of_not_lt hxb
        obtain ⟨p, hp, hpx⟩ := hih.mp ⟨hbx, hxL⟩
        exact ⟨p, List.mem_cons_of_mem q hp, hpx⟩
    · rintro ⟨p, hp, hp1, hp2⟩
      rcases List.mem_cons.mp hp with hp | hp
      · subst hp
        exact ⟨hp1, Nat.lt_of_lt_of_le hp2 hq3⟩
      · have hsp := segsOK_start_le hrest p hp
        have hprops := segsOK_mem_props hrest p hp
        refine ⟨by omega, ?_⟩
        exact Nat.lt_of_lt_of_le hp2 hprops.2.1

theorem segmentsLoop_length (fS sS : Nat) :
    ∀ count rem start, (segmentsLoop fS sS rem start count).length = count := by
  intro count
  induction count with
  | zero => intro rem start; rfl
  | succ count ih =>
    intro rem start
    simp only [segmentsLoop, List.length_cons, ih]

theorem segmentsLoop_head (fS sS : Nat) (count rem start : Nat) (h : 0 < count) :
    (segmentsLoop fS sS rem start count).head?.map Prod.fst = some start := by
  cases count with
  | zero => exact absurd h (Nat.lt_irrefl 0)
  | succ count => simp [segmentsLoop]

theorem segmentsLoop_align (fS sS : Nat) :
    ∀ count rem start, (start % oneMB = 0 ∨ start = fS) →
      ∀ p ∈ segmentsLoop fS sS rem start count,
        p.2 % oneMB = 0 ∨ p.2 = fS := by
  intro count
  induction count with
  | zero => intro rem start _ p hp; exact absurd hp (List.not_mem_nil p)
  | succ count ih =>
    intro rem start hstart p hp
    simp only [segmentsLoop] at hp
    have key : ∀ d : Nat, d % oneMB = 0 →
        (if fS < start + sS * oneMB + d then fS else start + sS * oneMB + d) % oneMB = 0 ∨
        (if fS < start + sS * oneMB + d then fS else start + sS * oneMB + d) = fS := by
      intro d hdmod
      by_cases hcl : fS < start + sS * oneMB + d
      · rw [if_pos hcl]; exact Or.inr rfl
      · rw [if_neg hcl]
        rcases hstart with hs | hs
        · left
          have h1 : (start + sS * oneMB) % oneMB = start % oneMB :=
            Nat.add_mul_mod_self_right start sS oneMB
          rw [Nat.add_mod, h1, hs, hdmod]
          simp
        · right
          have hle : start + sS * oneMB + d ≤ fS := Nat.le_of_not_lt hcl
          omega
    have hdmod : (if 0 < rem then oneMB else 0) % oneMB = 0 := by
      by_cases hr : 0 < rem
      · rw [if_pos hr, Nat.mod_self]
      · rw [if_neg hr, Nat.zero_mod]
    have hend := key (if 0 < rem then oneMB else 0) hdmod
    rcases List.mem_cons.mp hp with hp | hp
    · subst hp; exact hend
    · exact ih (rem - 1) _ hend p hp

theorem segmentsLoop_zero_file :
    ∀ count, segmentsLoop 0 0 0 0 count = List.replicate count (0, 0) := by
  intro count
  induction count with
  | zero => rfl
  | succ count ih =>
    simp only [segmentsLoop, Nat.zero_mul, Nat.add_zero, Nat.zero_add,
      if_neg (Nat.lt_irrefl 0), List.replicate, ih]

theorem ceil_mul_ge (fS : Nat) : fS ≤ ((fS + oneMB - 1) / oneMB) * oneMB := by
  have hMB := oneMB_pos
  have h1 := Nat.div_add_mod (fS + oneMB - 1) oneMB
  have h2 : (fS + oneMB - 1) % oneMB < oneMB := Nat.mod_lt _ hMB
  have h3 : ((fS + oneMB - 1) / oneMB) * oneMB = oneMB * ((fS + oneMB - 1) / oneMB) :=
    Nat.mul_comm _ _
  omega

theorem divideFileIntoSegments_segsOK (fS tc : Nat) (htc : 1 ≤ tc) :
    SegsOK fS 0 (divideFileIntoSegments fS tc) := by
  unfold divideFileIntoSegments
  apply segmentsLoop_segsOK
  · exact Nat.zero_le fS
  · have hmodlt : ((fS + oneMB - 1) / oneMB) % tc < tc :=
      Nat.mod_lt _ (Nat.lt_of_lt_of_le Nat.zero_lt_one htc)
    have hmin : min (((fS + oneMB - 1) / oneMB) % tc) tc
        = ((fS + oneMB - 1) / oneMB) % tc := Nat.min_eq_left (Nat.le_of_lt hmodlt)
    have hdm : tc * (((fS + oneMB - 1) / oneMB) / tc) + ((fS + oneMB - 1) / oneMB) % tc
        = (fS + oneMB - 1) / oneMB := Nat.div_add_mod _ tc
    have hceil := ceil_mul_ge fS
    calc fS ≤ ((fS + oneMB - 1) / oneMB) * oneMB := hceil
      _ = (tc * (((fS + oneMB - 1) / oneMB) / tc) + ((fS + oneMB - 1) / oneMB) % tc)
            * oneMB := by rw [hdm]
      _ = 0 + (tc * (((fS + oneMB - 1) / oneMB) / tc)
            + min (((fS + oneMB - 1) / oneMB) % tc) tc) * oneMB := by
          rw [hmin, Nat.zero_add]

theorem compressPartLoop_spec (C : Codec) (level : Nat) (file : List Nat) :
    ∀ e pos, pos ≤ e → e ≤ file.length →
      (pos < e → (e - pos) % oneMB = 0 ∨ e = file.length) →
      (pos = e → pos = file.length) →
      ∃ chunks : List (List Nat),
        compressPartLoop C level file e pos
          = some ((chunks.map (C.encodeAll level)).flatten) ∧
        chunks.flatten = (file.drop pos).take (e - pos) := by
  suffices H : ∀ k e pos, file.length - pos ≤ k → pos ≤ e → e ≤ file.length →
      (pos < e → (e - pos) % oneMB = 0 ∨ e = file.length) →
      (pos = e → pos = file.length) →
      ∃ chunks : List (List Nat),
        compressPartLoop C level file e pos
          = some ((chunks.map (C.encodeAll level)).flatten) ∧
        chunks.flatten = (file.drop pos).take (e - pos) by
    intro e pos h1 h2 h3 h4
    exact H (file.length - pos) e pos (Nat.le_refl _) h1 h2 h3 h4
  intro k
  induction k with
  | zero =>
    intro e pos hk hle hL hally hempty
    have hMB := oneMB_pos
    -- no fuel: the file is exhausted, so the first read returns zero
    have hn0 : min oneMB (file.length - pos) = 0 := by omega
    rw [compressPartLoop, dif_pos hn0]
    have hpe : pos = e := by
      have := hempty
      omega
    refine ⟨[], rfl, ?_⟩
    rw [hpe, Nat.sub_self, List.take_zero]
    rfl
  | succ k ih =>
    intro e pos hk hle hL hally hempty
    have hMB := oneMB_pos
    by_cases hn0 : min oneMB (file.length - pos) = 0
    · rw [compressPartLoop, dif_pos hn0]
      have hpL : file.length ≤ pos := by omega
      have hpe : pos = e := by omega
      refine ⟨[], rfl, ?_⟩
      rw [hpe, Nat.sub_self, List.take_zero]
      rfl
    · have hposL : pos < file.length := by omega
      have hpose : pos < e := by
        rcases Nat.eq_or_lt_of_le hle with heq | hlt
        · exact absurd (hempty heq) (by omega)
        · exact hlt
      rw [compressPartLoop, dif_neg hn0]
      simp only []
      by_cases hEnd : pos + min oneMB (file.length - pos) = e
      · rw [if_pos hEnd]
        refine ⟨[(file.drop pos).take (min oneMB (file.length - pos))], ?_, ?_⟩
        · simp
        · simp only [List.flatten_cons, List.flatten_nil, List.append_nil]
          congr 1
          omega
      · rw [if_neg hEnd]
        have hNoOver : ¬ e < pos + min oneMB (file.length - pos) := by
          rcases hally hpose with hmod | heL
          · have hdvd : oneMB ∣ (e - pos) := Nat.dvd_of_mod_eq_zero hmod
            have hge : oneMB ≤ e - pos := Nat.le_of_dvd (by omega) hdvd
            omega
          · omega
        rw [if_neg hNoOver]
        have hlt2 : pos + min oneMB (file.length - pos) < e := by omega
        have hinv : pos + min oneMB (file.length - pos) < e →
            (e - (pos + min oneMB (file.length - pos))) % oneMB = 0 ∨
            e = file.length := by
          intro _
          rcases hally hpose with hmod | heL
          · left
            have hone : min oneMB (file.length - pos) = oneMB := by
              rcases Nat.le_total oneMB (file.length - pos) with hc | hc
              · exact Nat.min_eq_left hc
              · exfalso
                have : min oneMB (file.length - pos) = file.length - pos :=
                  Nat.min_eq_right hc
                omega
            obtain ⟨m, hm⟩ := Nat.dvd_of_mod_eq_zero hmod
            have hm1 : 1 ≤ m := by
              rcases Nat.eq_zero_or_pos m with h0 | h1
              · rw [h0, Nat.mul_zero] at hm; omega
              · exact h1
            obtain ⟨m2, hm2⟩ : ∃ m2, m = m2 + 1 := ⟨m - 1, by omega⟩
            rw [hm2] at hm
            have hstep : e - (pos + min oneMB (file.length - pos)) = oneMB * m2 := by
              rw [hone]
              have : oneMB * (m2 + 1) = oneMB * m2 + oneMB := Nat.mul_succ oneMB m2
              omega
            rw [hstep]
            exact Nat.mul_mod_right oneMB m2
          · exact Or.inr heL
        obtain ⟨chunks, hres, hflat⟩ := ih e (pos + min oneMB (file.length - pos))
          (by omega) (by omega) hL hinv (fun heq => absurd heq (by omega))
        refine ⟨(file.drop pos).take (min oneMB (file.length - pos)) :: chunks, ?_, ?_⟩
        · rw [hres]
          simp
        · simp only [List.flatten_cons, hflat]
          have hsplit : e - pos = min oneMB (file.length - pos) +
              (e - (pos + min oneMB (file.length - pos))) := by omega
          rw [hsplit, List.take_add, List.drop_drop]

theorem decode_flatten {C : Codec} (hC : FrameCodec C) (level : Nat) :
    ∀ (chunks : List (List Nat)) (rest r : List Nat), C.decode rest = some r →
      C.decode ((chunks.map (C.encodeAll level)).flatten ++ rest)
        = some (chunks.flatten ++ r) := by
  intro chunks
  induction chunks with
  | nil =>
    intro rest r h
    simpa using h
  | cons c cs ih =>
    intro rest r h
    have h2 := ih rest r h
    have h3 := hC.2 level c _ _ h2
    simp only [List.map_cons, List.flatten_cons, List.append_assoc]
    simpa [List.append_assoc] using h3

theorem collectParts_spec (C : Codec) (hC : FrameCodec C) (level : Nat)
    (file : List Nat) :
    ∀ (segs : List (Nat × Nat)) (s : Nat), SegsOK file.length s segs →
      ∃ parts, collectParts C level file segs = some parts ∧
        ∀ rest r, C.decode rest = some r →
          C.decode (parts.flatten ++ rest) = some (file.drop s ++ r) := by
  intro segs
  induction segs with
  | nil =>
    intro s hs
    refine ⟨[], rfl, ?_⟩
    intro rest r h
    have hsL : s = file.length := hs
    rw [hsL]
    simpa [List.drop_length] using h
  | cons seg rest' ih =>
    intro s hs
    obtain ⟨hq1, hq2, hq3, hq4, hq5, hrest⟩ := hs
    obtain ⟨chunks, hloop, hflat⟩ :=
      compressPartLoop_spec C level file seg.2 seg.1 hq2 hq3 hq4 hq5
    obtain ⟨parts', hcol, hdec⟩ := ih seg.2 hrest
    refine ⟨(chunks.map (C.encodeAll level)).flatten :: parts', ?_, ?_⟩
    · show (match compressPart C level file seg, collectParts C level file rest' with
        | some p, some ps => some (p :: ps)
        | _, _ => none) = _
      rw [show compressPart C level file seg = compressPartLoop C level file seg.2 seg.1
        from rfl, hloop, hcol]
    · intro rest r h
      have h2 := hdec rest r h
      have h3 := decode_flatten hC level chunks (parts'.flatten ++ rest)
        (file.drop seg.2 ++ r) h2
      have e1 : (file.drop seg.1).drop (seg.2 - seg.1) = file.drop seg.2 := by
        rw [List.drop_drop]
        congr 1
        omega
      have e2 : chunks.flatten ++ file.drop seg.2 = file.drop seg.1 := by
        rw [hflat, ← e1, List.take_append_drop]
      subst hq1
      calc C.decode (((chunks.map (C.encodeAll level)).flatten :: parts').flatten ++ rest)
          = C.decode ((chunks.map (C.encodeAll level)).flatten
              ++ (parts'.flatten ++ rest)) := by
            simp [List.flatten_cons, List.append_assoc]
        _ = some (chunks.flatten ++ (file.drop seg.2 ++ r)) := h3
        _ = some (file.drop seg.1 ++ r) := by
            rw [← List.append_assoc, e2]

theorem sorted_sort_eq (l m : List (Nat × List Nat))
    (hl : List.Pairwise (fun a b : Nat × List Nat => a.1 < b.1) l)
    (hperm : List.Perm m l) :
    List.insertionSort (fun a b => a.1 ≤ b.1) m = l := by
  haveI hTot : IsTotal (Nat × List Nat) (fun a b => a.1 ≤ b.1) :=
    ⟨fun a b => Nat.le_total a.1 b.1⟩
  haveI hTrans : IsTrans (Nat × List Nat) (fun a b => a.1 ≤ b.1) :=
    ⟨fun a b c h1 h2 => Nat.le_trans h1 h2⟩
  haveI hAnti : IsAntisymm (Nat × List Nat) (fun a b => a.1 < b.1) :=
    ⟨fun a b h1 h2 => absurd h1 (Nat.lt_asymm h2)⟩
  have hperm2 : List.Perm (List.insertionSort (fun a b => a.1 ≤ b.1) m) l :=
    (List.perm_insertionSort _ m).trans hperm
  have hsortedLe : List.Pairwise (fun a b : Nat × List Nat => a.1 ≤ b.1)
      (List.insertionSort (fun a b => a.1 ≤ b.1) m) :=
    List.sorted_insertionSort _ m
  have hneL : List.Pairwise (fun a b : Nat × List Nat => a.1 ≠ b.1) l :=
    hl.imp (fun h => Nat.ne_of_lt h)
  have hne : List.Pairwise (fun a b : Nat × List Nat => a.1 ≠ b.1)
      (List.insertionSort (fun a b => a.1 ≤ b.1) m) :=
    (List.Perm.pairwise_iff (by intro a b h heq; exact h heq.symm) hperm2).mpr hneL
  have hsortedLt : List.Pairwise (fun a b : Nat × List Nat => a.1 < b.1)
      (List.insertionSort (fun a b => a.1 ≤ b.1) m) :=
    (hsortedLe.and hne).imp (fun h => Nat.lt_of_le_of_ne h.1 h.2)
  exact List.eq_of_perm_of_sorted hperm2 hsortedLt hl

theorem enumFrom_pairwise_fst {α : Type} (l : List α) :
    ∀ n, List.Pairwise (fun a b : Nat × α => a.1 < b.1) (l.enumFrom n) := by
  induction l with
  | nil => intro n; exact List.Pairwise.nil
  | cons x xs ih =>
    intro n
    refine List.Pairwise.cons ?_ (ih (n + 1))
    intro p hp
    exact Nat.lt_of_lt_of_le (Nat.lt_succ_self n) (List.mem_enumFrom hp).1

theorem enum_pairwise_fst {α : Type} (l : List α) :
    List.Pairwise (fun a b : Nat × α => a.1 < b.1) l.enum :=
  enumFrom_pairwise_fst l 0

theorem concatenateFiles_enum (parts : List (List Nat)) :
    concatenateFiles parts.enum = parts.flatten := by
  unfold concatenateFiles
  rw [sorted_sort_eq parts.enum parts.enum (enum_pairwise_fst parts) (List.Perm.refl _),
    List.enum_map_snd]

/-- The outcome of a run of `compressFileBlock`, as observed by its caller:
either the assembled output, or a Go `panic` with a message. -/
inductive BlockOutcome where
  | ok (out : List Nat)
  | panicked (msg : String)
deriving DecidableEq

/-- The message of the `panic` at line 235 of the source. -/
def blockErrMsg : String := "[ERROR] some errors see above"

/-- The errors collected on `errChan` (one per failed worker). -/
def workerErrors (results : List (Except String (List Nat))) : List String :=
  results.filterMap fun r =>
    match r with
    | Except.error e => some e
    | Except.ok _ => none

/-- The part payloads of the successful workers, in segment-index order. -/
def okPayloads (results : List (Except String (List Nat))) : List (List Nat) :=
  results.filterMap fun r =>
    match r with
    | Except.error _ => none
    | Except.ok p => some p

/-- The collection/abort logic of `compressFileBlock` (source lines
218-239), over an explicit list of per-worker results (`results.get i` is
worker `i`'s outcome): if any error was sent on `errChan` the function
panics with the fixed message `blockErrMsg`; otherwise the indexed part
files are concatenated. -/
def compressFileBlockOutcome (results : List (Except String (List Nat))) :
    BlockOutcome :=
  if workerErrors results = [] then
    BlockOutcome.ok (concatenateFiles (okPayloads results).enum)
  else
    BlockOutcome.panicked blockErrMsg

/-- Like `compressFileBlockOutcome`, additionally tracking the on-disk
part files: every worker creates its part file (source line 51) before
its read loop can fail; `concatenateFiles` removes the files it
concatenated (source lines 189-191) only after the copy loop succeeds,
and the panic path of `compressFileBlock` removes nothing.  The second
component is the list of part-file indices still on disk when the
function returns. -/
def compressFileBlockFS (results : List (Except String (List Nat))) :
    BlockOutcome × List Nat :=
  let disk := List.range results.length
  if workerErrors results = [] then
    (BlockOutcome.ok (concatenateFiles (okPayloads results).enum),
      disk.filter fun i => !((okPayloads results).enum.map Prod.fst).contains i)
  else
    (BlockOutcome.panicked blockErrMsg, disk)

theorem okPayloads_length (results : List (Except String (List Nat)))
    (h : workerErrors results = []) :
    (okPayloads results).length = results.length := by
  induction results with
  | nil => rfl
  | cons r rest ih =>
    cases r with
    | error e =>
      exfalso
      have : workerErrors (Except.error e :: rest) = e :: workerErrors rest := rfl
      rw [this] at h
      exact List.cons_ne_nil e (workerErrors rest) h
    | ok p =>
      have h2 : workerErrors (Except.ok p :: rest) = workerErrors rest := rfl
      rw [h2] at h
      have h3 : okPayloads (Except.ok p :: rest) = p :: okPayloads rest := rfl
      rw [h3, List.length_cons, ih h, List.length_cons]

theorem workerErrors_ne_nil {results : List (Except String (List Nat))} {e : String}
    (h : Except.error e ∈ results) : workerErrors results ≠ [] := by
  have hmem : e ∈ workerErrors results := by
    rw [workerErrors, List.mem_filterMap]
    exact ⟨Except.error e, h, rfl⟩
  exact List.ne_nil_of_mem hmem

theorem divideFileIntoSegments_length (fS tc : Nat) :
    (divideFileIntoSegments fS tc).length = tc := by
  unfold divideFileIntoSegments
  exact segmentsLoop_length fS _ tc _ 0

/-- C1: for every input file content, every compression level and every
`workerCount ≥ 1` (including counts larger than the number of 1 MiB units
and empty input), decompressing the output of the block-mode compression
pipeline yields exactly the input.  The zstd codec is abstract; the
hypothesis `FrameCodec C` is its documented framing contract. -/
theorem C1_block_roundtrip (C : Codec) (hC : FrameCodec C) (level : Nat)
    (file : List Nat) (workerCount : Nat) (htc : 1 ≤ workerCount) :
    (compressFileBlock C level file workerCount).bind (decompressFile C)
      = some file := by
  obtain ⟨parts, hcol, hdec⟩ := collectParts_spec C hC level file
    (divideFileIntoSegments file.length workerCount) 0
    (divideFileIntoSegments_segsOK file.length workerCount htc)
  have hcb : compressFileBlock C level file workerCount
      = some (concatenateFiles parts.enum) := by
    unfold compressFileBlock
    rw [hcol]
  rw [hcb]
  show decompressFile C (concatenateFiles parts.enum) = some file
  rw [decompressFile, concatenateFiles_enum]
  have h2 := hdec [] [] hC.1
  simpa using h2

theorem C1_block_roundtrip_witness :
    FrameCodec lpCodec ∧ 1 ≤ 2 ∧
    (compressFileBlock lpCodec 3 [10, 20, 30] 2).bind (decompressFile lpCodec)
      = some [10, 20, 30] :=
  ⟨lpCodec_frame, by decide,
    C1_block_roundtrip lpCodec lpCodec_frame 3 [10, 20, 30] 2 (by decide)⟩

/-- C2: for every `fileSize ≥ 0` and `workerCount ≥ 1`, the planner's
segments are ordered by index, pairwise non-overlapping, contiguous
(first start 0, each segment's start equal to the previous end, last end
`fileSize`), and their union is exactly `[0, fileSize)`. -/
theorem C2_partition (fS tc : Nat) (htc : 1 ≤ tc) :
    (divideFileIntoSegments fS tc).head?.map Prod.fst = some 0 ∧
    (divideFileIntoSegments fS tc).getLast?.map Prod.snd = some fS ∧
    List.Chain' (fun a b => a.2 = b.1) (divideFileIntoSegments fS tc) ∧
    (∀ p ∈ divideFileIntoSegments fS tc, p.1 ≤ p.2) ∧
    List.Pairwise (fun a b => a.2 ≤ b.1) (divideFileIntoSegments fS tc) ∧
    (∀ x, x < fS ↔ ∃ p ∈ divideFileIntoSegments fS tc, p.1 ≤ x ∧ x < p.2) := by
  have hOK := divideFileIntoSegments_segsOK fS tc htc
  refine ⟨?_, ?_, segsOK_chain hOK, fun p hp => (segsOK_mem_props hOK p hp).1,
    segsOK_pairwise hOK, ?_⟩
  · unfold divideFileIntoSegments
    exact segmentsLoop_head fS _ tc _ 0 (by omega)
  · rcases segsOK_last hOK with h | ⟨hnil, hs⟩
    · exact h
    · have hlen := divideFileIntoSegments_length fS tc
      rw [hnil] at hlen
      simp at hlen
      omega
  · intro x
    have h := segsOK_cover hOK x
    simpa using h

theorem C2_partition_witness :
    (divideFileIntoSegments 3 2).head?.map Prod.fst = some 0 ∧
    (divideFileIntoSegments 3 2).getLast?.map Prod.snd = some 3 :=
  ⟨(C2_partition 3 2 (by decide)).1, (C2_partition 3 2 (by decide)).2.1⟩

/-- C3: a worker run on any planner-produced segment never takes the
over-read panic branch (modelled by `none`): its read loop always
terminates successfully, never advancing past the segment's end.
(The mechanism is 1 MiB alignment of the planner's boundaries, so reads
land exactly on `segment.end` or on end-of-file.) -/
theorem C3_worker_no_overread (C : Codec) (level : Nat) (file : List Nat)
    (tc : Nat) (htc : 1 ≤ tc) :
    ∀ seg ∈ divideFileIntoSegments file.length tc,
      ∃ out, compressPart C level file seg = some out := by
  intro seg hseg
  have hOK := divideFileIntoSegments_segsOK file.length tc htc
  have hp := segsOK_mem_props hOK seg hseg
  obtain ⟨chunks, hres, _⟩ :=
    compressPartLoop_spec C level file seg.2 seg.1 hp.1 hp.2.1 hp.2.2.1 hp.2.2.2
  exact ⟨_, hres⟩

theorem C3_worker_no_overread_witness :
    (compressPart lpCodec 3 [10, 20, 30] (0, 3)).isSome = true := by
  obtain ⟨out, hout⟩ :=
    C3_worker_no_overread lpCodec 3 [10, 20, 30] 2 (by decide) (0, 3) (by decide)
  rw [hout]
  rfl

/-- C4 counterexample: on the segment `[0, 3)` of a one-byte file, the
first read returns 1 byte, the second read returns 0 bytes at position
`1 < 3`, and the worker nevertheless completes successfully (no error:
`some` payload), refuting the claim that a zero-byte read before
`segment.end` yields a fatal error. -/
theorem C4_short_read_cex :
    min oneMB (List.length [5] - 1) = 0 ∧ (1 : Nat) < 3 ∧
    compressPart lpCodec 7 [5] (0, 3) = some [1, 5] := by
  refine ⟨by decide, by decide, ?_⟩
  show compressPartLoop lpCodec 7 [5] 3 0 = some [1, 5]
  rw [compressPartLoop]
  norm_num [oneMB_eq, Nat.min_def]
  rw [compressPartLoop]
  norm_num [oneMB_eq, Nat.min_def, lpCodec, lpEncode]

/-- C4 amended: if a worker's read returns zero bytes (the read position
has reached end-of-file) while the position is still strictly below
`segment.end`, the read loop breaks and the worker completes
*successfully* with the output produced so far — the code has no fatal
short-read error. -/
theorem C4_short_read_success (C : Codec) (level : Nat) (file : List Nat)
    (e pos : Nat) (hzero : file.length ≤ pos) (hbelow : pos < e) :
    compressPartLoop C level file e pos = some [] := by
  have h1 : file.length - pos = 0 := by omega
  have hn0 : min oneMB (file.length - pos) = 0 := by
    rw [h1, Nat.min_zero]
  rw [compressPartLoop, dif_pos hn0]

theorem C4_short_read_success_witness :
    List.length [5] ≤ 1 ∧ (1 : Nat) < 3 ∧
    compressPartLoop lpCodec 7 [5] 3 1 = some [] :=
  ⟨by decide, by decide,
    C4_short_read_success lpCodec 7 [5] 3 1 (by decide) (by decide)⟩

/-- C5: for any family of per-segment outputs with pairwise-distinct
indices, the reassembled stream is the concatenation of the payloads in
ascending index order, and it is the same for every completion order
(permutation) in which the parts are presented to `concatenateFiles`. -/
theorem C5_reassembly_order_independent (l m : List (Nat × List Nat))
    (hsorted : List.Pairwise (fun a b => a.1 < b.1) l)
    (hperm : List.Perm m l) :
    concatenateFiles m = (l.map Prod.snd).flatten := by
  unfold concatenateFiles
  rw [sorted_sort_eq l m hsorted hperm]

theorem C5_reassembly_order_independent_witness :
    List.Pairwise (fun a b : Nat × List Nat => a.1 < b.1)
      [(0, [10]), (1, [20, 30])] ∧
    List.Perm [(1, [20, 30]), (0, [10])] [(0, [10]), (1, [20, 30])] ∧
    concatenateFiles [(1, [20, 30]), (0, [10])]
      = (([(0, [10]), (1, [20, 30])] : List (Nat × List Nat)).map Prod.snd).flatten :=
  ⟨by decide, by decide,
    C5_reassembly_order_independent [(0, [10]), (1, [20, 30])]
      [(1, [20, 30]), (0, [10])] (by decide) (by decide)⟩

/-- C6 counterexample: with `fileSize = 0` and `workerCount = 2` the
planner returns two empty segments — neither a single empty segment nor
an empty sequence, refuting the claim's dichotomy. -/
theorem C6_zero_file_cex :
    divideFileIntoSegments 0 2 = [(0, 0), (0, 0)] ∧
    (divideFileIntoSegments 0 2).length ≠ 1 ∧
    divideFileIntoSegments 0 2 ≠ [] := by
  decide

/-- C6 amended: for every `workerCount ≥ 1`, the planner applied to
`fileSize = 0` does not crash and returns exactly `workerCount` empty
segments `(0, 0)` — a single empty segment only when `workerCount = 1`,
never an empty sequence. -/
theorem C6_zero_file_segments (tc : Nat) (htc : 1 ≤ tc) :
    divideFileIntoSegments 0 tc = List.replicate tc (0, 0) := by
  have hMB := oneMB_pos
  unfold divideFileIntoSegments
  have h1 : (0 + oneMB - 1) / oneMB = 0 := Nat.div_eq_of_lt (by omega)
  rw [h1]
  show segmentsLoop 0 (0 / tc) (0 % tc) 0 tc = List.replicate tc (0, 0)
  rw [Nat.zero_div, Nat.zero_mod]
  exact segmentsLoop_zero_file tc

theorem C6_zero_file_segments_witness :
    1 ≤ 3 ∧ divideFileIntoSegments 0 3 = List.replicate 3 (0, 0) :=
  ⟨by decide, C6_zero_file_segments 3 (by decide)⟩

/-- C7 counterexample: for `fileSize = oneMB + 1` and `workerCount = 4`
the planner returns four segments and the segment at index 1 — not among
the last two — ends at `oneMB + 1`, which is not a multiple of 1 MiB,
refuting the claim that only the last two segment ends may be
unaligned. -/
theorem C7_alignment_cex :
    (divideFileIntoSegments (oneMB + 1) 4).length = 4 ∧
    (divideFileIntoSegments (oneMB + 1) 4)[1]? = some (oneMB, oneMB + 1) ∧
    (oneMB + 1) % oneMB ≠ 0 := by
  decide

/-- C7 amended: for every `fileSize` and `workerCount ≥ 1`, every
segment's end offset is a multiple of 1 MiB **or equals `fileSize`**
(all segments from the first clamped one onward end at `fileSize`, which
can affect more than the last two segments). -/
theorem C7_alignment (fS tc : Nat) (htc : 1 ≤ tc) :
    ∀ p ∈ divideFileIntoSegments fS tc, p.2 % oneMB = 0 ∨ p.2 = fS := by
  unfold divideFileIntoSegments
  intro p hp
  exact segmentsLoop_align fS _ tc _ 0 (Or.inl (Nat.zero_mod oneMB)) p hp

theorem C7_alignment_witness :
    1 ≤ 2 ∧ (0, 3) ∈ divideFileIntoSegments 3 2 ∧
    (((0, 3) : Nat × Nat).2 % oneMB = 0 ∨ ((0, 3) : Nat × Nat).2 = 3) :=
  ⟨by decide, by decide, C7_alignment 3 2 (by decide) (0, 3) (by decide)⟩

/-- C8 counterexample: runs whose failures sit at different segment
indices (0 versus 2) and carry different underlying errors produce the
*identical* caller-visible outcome — a panic with the fixed message —
so the pipeline's failure report contains neither the first error nor
the responsible segment index, refuting the claim. -/
theorem C8_failure_report_cex :
    compressFileBlockOutcome [Except.error "read fail", Except.ok [1]]
      = BlockOutcome.panicked blockErrMsg ∧
    compressFileBlockOutcome [Except.ok [1], Except.ok [2], Except.error "other"]
      = BlockOutcome.panicked blockErrMsg ∧
    compressFileBlockOutcome [Except.error "read fail", Except.ok [1]]
      = compressFileBlockOutcome [Except.ok [1], Except.ok [2], Except.error "other"] := by
  decide

/-- C8 amended: whenever any worker fails, `compressFileBlock` panics
with the fixed message `"[ERROR] some errors see above"` (after printing
the error text to stdout); the panic carries no segment index, and no
error value is returned to the caller. -/
theorem C8_panic_on_failure (results : List (Except String (List Nat)))
    (e : String) (hmem : Except.error e ∈ results) :
    compressFileBlockOutcome results = BlockOutcome.panicked blockErrMsg := by
  rw [compressFileBlockOutcome, if_neg (workerErrors_ne_nil hmem)]

theorem C8_panic_on_failure_witness :
    Except.error "x" ∈ ([Except.error "x"] : List (Except String (List Nat))) ∧
    compressFileBlockOutcome [Except.error "x"]
      = BlockOutcome.panicked blockErrMsg :=
  ⟨List.mem_cons_self _ _,
    C8_panic_on_failure [Except.error "x"] "x" (List.mem_cons_self _ _)⟩

/-- C9 counterexample: when worker 1 fails, the pipeline panics and both
already-created part files (indices 0 and 1) remain on disk, refuting
the claim that every exit path removes all intermediate part files. -/
theorem C9_residue_cex :
    compressFileBlockFS [Except.ok [1], Except.error "read fail"]
      = (BlockOutcome.panicked blockErrMsg, [0, 1]) ∧
    ([0, 1] : List Nat) ≠ [] := by
  decide

/-- C9 amended: intermediate part files are removed only on the success
path, after a fully successful reassembly; on any worker failure the
pipeline panics and every already-created part file remains on disk. -/
theorem C9_cleanup_only_on_success (results : List (Except String (List Nat))) :
    (workerErrors results = [] → (compressFileBlockFS results).2 = []) ∧
    (workerErrors results ≠ [] → (compressFileBlockFS results).2
      = List.range results.length) := by
  constructor
  · intro h
    simp only [compressFileBlockFS]
    rw [if_pos h]
    have hkeys : (okPayloads results).enum.map Prod.fst
        = List.range (okPayloads results).length := List.enum_map_fst _
    have hlen := okPayloads_length results h
    rw [hkeys, hlen]
    apply List.filter_eq_nil_iff.mpr
    intro i hi
    have hc : List.contains (List.range results.length) i = true :=
      List.elem_iff.mpr hi
    simp [hc]
    exact List.mem_range.mp hi
  · intro h
    simp only [compressFileBlockFS]
    rw [if_neg h]

theorem C9_cleanup_only_on_success_witness :
    (compressFileBlockFS [Except.ok [1], Except.ok [2]]).2 = [] ∧
    (compressFileBlockFS [Except.error "x"]).2 = List.range 1 :=
  ⟨(C9_cleanup_only_on_success [Except.ok [1], Except.ok [2]]).1 (by decide),
    (C9_cleanup_only_on_success [Except.error "x"]).2 (by decide)⟩

/-- C10: for every `fileSize` and `threadCount ≥ 1`, the planner returns
exactly `threadCount` segments, each with `0 ≤ start ≤ end ≤ fileSize`;
hence the orchestrator's access `offset[i]` for `i < threadCount` is in
bounds. -/
theorem C10_planner_bounds (fS tc : Nat) (htc : 1 ≤ tc) :
    (divideFileIntoSegments fS tc).length = tc ∧
    (∀ i, i < tc → i < (divideFileIntoSegments fS tc).length) ∧
    ∀ p ∈ divideFileIntoSegments fS tc, p.1 ≤ p.2 ∧ p.2 ≤ fS := by
  have hOK := divideFileIntoSegments_segsOK fS tc htc
  have hlen := divideFileIntoSegments_length fS tc
  refine ⟨hlen, fun i hi => by omega, fun p hp => ?_⟩
  have h := segsOK_mem_props hOK p hp
  exact ⟨h.1, h.2.1⟩

theorem C10_planner_bounds_witness :
    (divideFileIntoSegments 3 2).length = 2 :=
  (C10_planner_bounds 3 2 (by decide)).1

end Gozstd
